import Mathlib

/-!
Shallow embedding of the sprunge parser-combinator library core.

Inputs are modelled as `List Char`, positions as `Nat`.  A failure records
the cause written by the source function `fail(pos, message, ...)`: the
position (an `Int`, since `readTo` can report position -1 on empty input)
and the message.  The process-wide detail flag `detailedFail & 1` (the
*messages* bit) is threaded as an explicit `det : Bool` argument; a parser
built while that bit is off stores the empty message, mirroring
`fail(p, detailedFail & 1 && msg)` followed by `message || ''`.  The
*causes* bit (`detailedFail & 2`) is modelled as off, which is the driver
default; it changes only the recorded cause tree, not control flow or
positions in the claims below.
-/

/-- Failure record written by the source fail(): position and message. -/
structure Cause where
  pos : Int
  msg : String
  deriving DecidableEq, Repr

/-- Outcome of a parse: success (value, new position) or failure. -/
inductive PResult (α : Type) where
  | success : α → Nat → PResult α
  | failure : Cause → PResult α
  deriving DecidableEq, Repr

/-- Is the result the failure signal? -/
def PResult.isFail {α : Type} : PResult α → Bool
  | .success _ _ => false
  | .failure _ => true

/-- A parser is a function from input and position to a parse outcome. -/
def ParserF (α : Type) : Type := List Char → Nat → PResult α

/-- Mirrors a message built as detailedFail and 1 and msg, stored as message or empty. -/
def failMsg (det : Bool) (msg : String) : String := if det then msg else ""

/-- Model of the JavaScript s.substr(p, n): n characters starting at p. -/
def jsSubstr (s : List Char) (p n : Nat) : List Char := (s.drop p).take n

/-- Model of the JavaScript s.substring(a, b): clamps both indices to the
string length and swaps them when a exceeds b. -/
def jsSubstring (s : List Char) (a b : Nat) : List Char :=
  let a2 := min a s.length
  let b2 := min b s.length
  (s.take (max a2 b2)).drop (min a2 b2)

/-!
Embedding of src/search.ts.

`getSearch(str, sorted)` selects one of the concrete search functions by
the length of `str`: `contains0` for length 0, the unrolled functions
`contains1` .. `contains10` for lengths 1-10, and for longer strings
`containsBinary` when the `sorted` flag (default true) is set, else
`containsFor`.  `SearchKind` tags which function is selected and
`searchRun` evaluates the selected function.
-/

/-- Source contains1: whole-string equality str === x (x a single char). -/
def contains1 (str : List Char) (x : Char) : Bool :=
  match str with
  | [c] => c = x
  | _ => false

/-- Source contains2 .. contains10: the unrolled disjunction
str[0] === x or ... or str[n-1] === x (an out-of-range index compares
unequal, as in JavaScript). -/
def containsU (str : List Char) (x : Char) : Nat → Bool
  | 0 => false
  | k + 1 => containsU str x k || decide (str[k]? = some x)

/-- Source containsFor: linear scan over the whole string. -/
def containsFor (str : List Char) (x : Char) : Bool :=
  str.any (fun c => c = x)

/-- Midpoint (start + end) >> 1 of the containsBinary loop; inside the
loop both bounds are non-negative, so the arithmetic shift is division
by two. -/
def bsearchMid (start : Nat) (e : Int) : Nat := ((start : Int) + e).toNat / 2

/-- Source containsBinary loop. start is a Nat (it only grows from 0);
e is an Int because end becomes mid - 1 and can reach -1.  The fuel
argument bounds the iteration count; the interval shrinks every pass, so
length + 1 passes always suffice (proved below).  Running out of fuel
returns false, like the fall-through return undefined of the source. -/
def bsearchLoop (str : List Char) (x : Char) : Nat → Nat → Int → Bool
  | 0, _, _ => false
  | f + 1, start, e =>
    if (start : Int) ≤ e then
      match str[bsearchMid start e]? with
      | some c =>
        if c = x then true
        else if c < x then bsearchLoop str x f (bsearchMid start e + 1) e
        else bsearchLoop str x f start ((bsearchMid start e : Int) - 1)
      | none => bsearchLoop str x f start ((bsearchMid start e : Int) - 1)
    else false

/-- Source containsBinary: guard on the first and last character, then
binary search.  On the empty string the guard comparisons with undefined
are false and the loop starts with end = -1, returning false. -/
def containsBinary (str : List Char) (x : Char) : Bool :=
  match h : str with
  | [] => false
  | c0 :: rest =>
    if x < c0 ∨ (c0 :: rest).getLast (by simp) < x then false
    else bsearchLoop str x (str.length + 1) 0 ((str.length : Int) - 1)

/-- Which membership-test technique getSearch selects. -/
inductive SearchKind where
  | alwaysFalse
  | unrolled : Nat → SearchKind
  | linear
  | binary
  deriving DecidableEq, Repr

/-- Embedding of the dispatch in getSearch(str, sorted): by string length,
with the sorted flag deciding between binary search and linear scan for
lengths above 10. -/
def getSearchKind (str : List Char) (sorted : Bool) : SearchKind :=
  if str.length = 0 then .alwaysFalse
  else if str.length ≤ 10 then .unrolled str.length
  else if sorted then .binary
  else .linear

/-- Runs the search function selected by getSearch on a character. -/
def searchRun (str : List Char) (sorted : Bool) (x : Char) : Bool :=
  match getSearchKind str sorted with
  | .alwaysFalse => false
  | .unrolled n => if n = 1 then contains1 str x else containsU str x n
  | .binary => containsBinary str x
  | .linear => containsFor str x

/-- Technique table claimed by the spec for getSearch: always-false for
size 0, unrolled disjunction for 1-10, linear scan for 11-80, binary
search only for 81 and above. -/
def specClaimedSearchKind (str : List Char) (sorted : Bool) : SearchKind :=
  if str.length = 0 then .alwaysFalse
  else if str.length ≤ 10 then .unrolled str.length
  else if str.length ≤ 80 then .linear
  else .binary

/-- Amended technique table: always-false for size 0, unrolled
disjunction for 1-10, and for sizes 11 and above binary search whenever
the sorted flag (the default) is set and a linear scan otherwise. -/
def specAmendedSearchKind (str : List Char) (sorted : Bool) : SearchKind :=
  if str.length = 0 then .alwaysFalse
  else if str.length ≤ 10 then .unrolled str.length
  else if sorted then .binary
  else .linear

example : getSearchKind ("0123456789a".toList) true = .binary := by decide
example : searchRun ("ab".toList) true 'b' = true := by decide
example : containsBinary ("abcdefghijk".toList) 'k' = true := by decide
example : containsBinary ("abcdefghijk".toList) 'z' = false := by decide

/-!
Embedding of charList from src/src/parsers/char.ts: the input characters
are sorted (chars.split('').sort().join('')) and then deduplicated by
scanning the sorted list and appending each character not yet present in
the accumulator.
-/

/-- Deduplication scan of charList: appends each character of the input
to the accumulator unless it already occurs there. -/
def dedupeScan : List Char → List Char → List Char
  | acc, [] => acc
  | acc, c :: rest => if c ∈ acc then dedupeScan acc rest else dedupeScan (acc ++ [c]) rest

/-- Source charList: sort, then deduplicate. -/
def charList (chars : List Char) : List Char :=
  dedupeScan [] (List.insertionSort (· ≤ ·) chars)

example : charList ("cabba".toList) = "abc".toList := by decide

theorem mem_dedupeScan (acc l : List Char) (x : Char) :
    x ∈ dedupeScan acc l ↔ x ∈ acc ∨ x ∈ l := by
  induction l generalizing acc with
  | nil => simp [dedupeScan]
  | cons c rest ih =>
    simp only [dedupeScan]
    split
    · rename_i hc
      rw [ih]
      constructor
      · rintro (h | h)
        · exact Or.inl h
        · exact Or.inr (List.mem_cons_of_mem _ h)
      · rintro (h | h)
        · exact Or.inl h
        · rcases List.mem_cons.mp h with h | h
          · exact Or.inl (h ▸ hc)
          · exact Or.inr h
    · rw [ih]
      simp only [List.mem_append, List.mem_singleton, List.mem_cons]
      tauto

/-- Membership in charList is membership in the original set. -/
theorem mem_charList (chars : List Char) (x : Char) :
    x ∈ charList chars ↔ x ∈ chars := by
  rw [charList, mem_dedupeScan]
  simp [List.Perm.mem_iff (List.perm_insertionSort (· ≤ ·) chars)]

theorem dedupeScan_sorted (acc l : List Char)
    (hacc : acc.Pairwise (· < ·))
    (hl : l.Pairwise (· ≤ ·))
    (hsep : ∀ a ∈ acc, ∀ b ∈ l, a ≤ b) :
    (dedupeScan acc l).Pairwise (· < ·) := by
  induction l generalizing acc with
  | nil => exact hacc
  | cons c rest ih =>
    simp only [dedupeScan]
    have hrest : rest.Pairwise (· ≤ ·) := (List.pairwise_cons.mp hl).2
    have hcrest : ∀ b ∈ rest, c ≤ b := (List.pairwise_cons.mp hl).1
    split
    · rename_i hc
      exact ih acc hacc hrest (fun a ha b hb => hsep a ha b (List.mem_cons_of_mem _ hb))
    · rename_i hc
      refine ih (acc ++ [c]) ?_ hrest ?_
      · rw [List.pairwise_append]
        refine ⟨hacc, List.pairwise_singleton _ _, ?_⟩
        intro a ha b hb
        rw [List.mem_singleton] at hb
        subst hb
        rcases lt_or_eq_of_le (hsep a ha b (List.mem_cons_self _ _)) with h | h
        · exact h
        · exact absurd (h ▸ ha) hc
      · intro a ha b hb
        rcases List.mem_append.mp ha with h | h
        · exact hsep a h b (List.mem_cons_of_mem _ hb)
        · rw [List.mem_singleton] at h
          subst h
          exact hcrest b hb

/-- The characters produced by charList are strictly sorted (sorted and
duplicate free). -/
theorem charList_sorted (chars : List Char) :
    (charList chars).Pairwise (· < ·) := by
  refine dedupeScan_sorted [] _ (by simp) ?_ (by simp)
  exact List.sorted_insertionSort (· ≤ ·) chars

/-!
Correctness of each search technique, leading to: the predicate selected
by getSearch on a charList output decides membership in the original set.
-/

theorem pairwise_lt_getElem? {str : List Char} (hs : str.Pairwise (· < ·))
    {i j : Nat} {a b : Char} (hi : str[i]? = some a) (hj : str[j]? = some b)
    (hij : i < j) : a < b := by
  rw [List.getElem?_eq_some] at hi hj
  obtain ⟨hi1, hi2⟩ := hi
  obtain ⟨hj1, hj2⟩ := hj
  subst hi2
  subst hj2
  exact List.pairwise_iff_getElem.mp hs i j hi1 hj1 hij

theorem contains1_iff_mem {str : List Char} (h : str.length = 1) (x : Char) :
    contains1 str x = true ↔ x ∈ str := by
  match str with
  | [c] => simp [contains1, eq_comm]

theorem containsU_iff_exists (str : List Char) (x : Char) (k : Nat) :
    containsU str x k = true ↔ ∃ i, i < k ∧ str[i]? = some x := by
  induction k with
  | zero => simp [containsU]
  | succ k ih =>
    simp only [containsU, Bool.or_eq_true, ih, decide_eq_true_eq]
    constructor
    · rintro (⟨i, hik, hi⟩ | h)
      · exact ⟨i, Nat.lt_succ_of_lt hik, hi⟩
      · exact ⟨k, Nat.lt_succ_self _, h⟩
    · rintro ⟨i, hik, hi⟩
      rcases Nat.lt_succ_iff_lt_or_eq.mp hik with h | h
      · exact Or.inl ⟨i, h, hi⟩
      · subst h
        exact Or.inr hi

theorem containsU_iff_mem (str : List Char) (x : Char) :
    containsU str x str.length = true ↔ x ∈ str := by
  rw [containsU_iff_exists]
  constructor
  · rintro ⟨i, hik, hi⟩
    rw [List.getElem?_eq_some] at hi
    obtain ⟨h1, h2⟩ := hi
    exact h2 ▸ List.getElem_mem h1
  · intro hm
    obtain ⟨i, hi, he⟩ := List.mem_iff_getElem.mp hm
    exact ⟨i, hi, by rw [List.getElem?_eq_some]; exact ⟨hi, he⟩⟩

theorem containsFor_iff_mem (str : List Char) (x : Char) :
    containsFor str x = true ↔ x ∈ str := by
  rw [containsFor, List.any_eq_true]
  constructor
  · rintro ⟨c, hc, he⟩
    simp only [decide_eq_true_eq] at he
    exact he ▸ hc
  · intro h
    exact ⟨x, h, by simp⟩

theorem bsearchLoop_sound (str : List Char) (x : Char) :
    ∀ (f : Nat) (start : Nat) (e : Int),
      bsearchLoop str x f start e = true → x ∈ str := by
  intro f
  induction f with
  | zero => intro start e h; simp [bsearchLoop] at h
  | succ f ih =>
    intro start e h
    rw [bsearchLoop] at h
    split at h
    · rcases hm : str[bsearchMid start e]? with _ | c
      · rw [hm] at h
        exact ih _ _ h
      · rw [hm] at h
        by_cases hcx : c = x
        · rw [List.getElem?_eq_some] at hm
          obtain ⟨h1, h2⟩ := hm
          exact hcx ▸ h2 ▸ List.getElem_mem h1
        · simp only [hcx, if_false] at h
          split at h
          · exact ih _ _ h
          · exact ih _ _ h
    · simp at h

theorem bsearchLoop_complete (str : List Char) (x : Char)
    (hs : str.Pairwise (· < ·)) :
    ∀ (f : Nat) (start : Nat) (e : Int), e < (str.length : Int) →
      (∃ i : Nat, start ≤ i ∧ (i : Int) ≤ e ∧ str[i]? = some x) →
      (e - (start : Int) + 1).toNat < f →
      bsearchLoop str x f start e = true := by
  intro f
  induction f with
  | zero => intro start e _ _ hf; omega
  | succ f ih =>
    intro start e he hmem hf
    obtain ⟨i, his, hie, hix⟩ := hmem
    have hse : (start : Int) ≤ e := le_trans (by exact_mod_cast his) hie
    rw [bsearchLoop, if_pos hse]
    have hmid1 : start ≤ bsearchMid start e := by
      rw [bsearchMid]; omega
    have hmid2 : (bsearchMid start e : Int) ≤ e := by
      rw [bsearchMid]; omega
    have hmlen : bsearchMid start e < str.length := by omega
    have hmsome : str[bsearchMid start e]? = some str[bsearchMid start e] :=
      List.getElem?_eq_getElem hmlen
    rw [hmsome]
    by_cases hcx : str[bsearchMid start e] = x
    · simp [hcx]
    · simp only [hcx, if_false]
      by_cases hlt : str[bsearchMid start e] < x
      · rw [if_pos hlt]
        have himid : bsearchMid start e < i := by
          rcases Nat.lt_or_ge i (bsearchMid start e) with h | h
          · exact absurd (pairwise_lt_getElem? hs hix hmsome h) (by
              intro hxc
              exact absurd (lt_trans hxc hlt) (lt_irrefl x))
          · rcases Nat.eq_or_lt_of_le h with h2 | h2
            · rw [← h2] at hix
              rw [hix] at hmsome
              exact absurd (Option.some.inj hmsome) (fun hh => hcx hh.symm)
            · exact h2
        exact ih (bsearchMid start e + 1) e he ⟨i, himid, hie, hix⟩ (by omega)
      · rw [if_neg hlt]
        have himid : i < bsearchMid start e := by
          rcases Nat.lt_or_ge i (bsearchMid start e) with h | h
          · exact h
          · rcases Nat.eq_or_lt_of_le h with h2 | h2
            · rw [← h2] at hix
              rw [hix] at hmsome
              exact absurd (Option.some.inj hmsome) (fun hh => hcx hh.symm)
            · exact absurd (pairwise_lt_getElem? hs hmsome hix h2)
                (fun hcx2 => hlt hcx2)
        exact ih start ((bsearchMid start e : Int) - 1) (by omega)
          ⟨i, his, by omega, hix⟩ (by omega)

theorem containsBinary_iff_mem {str : List Char}
    (hs : str.Pairwise (· < ·)) (x : Char) :
    containsBinary str x = true ↔ x ∈ str := by
  constructor
  · intro h
    match hstr : str with
    | [] => simp [containsBinary] at h
    | c0 :: rest =>
      rw [containsBinary] at h
      split at h
      · exact absurd h (by simp)
      · exact bsearchLoop_sound _ _ _ _ _ h
  · intro hm
    match hstr : str with
    | [] => simp at hm
    | c0 :: rest =>
      obtain ⟨i, hilen, hie⟩ := List.mem_iff_getElem.mp hm
      have hisome : (c0 :: rest)[i]? = some x := by
        rw [List.getElem?_eq_some]
        exact ⟨hilen, hie⟩
      have h0 : ¬ x < c0 := by
        intro hlt
        have h0some : (c0 :: rest)[0]? = some c0 := by simp
        rcases Nat.eq_zero_or_pos i with h | h
        · subst h
          simp at hisome
          exact absurd (hisome ▸ hlt) (lt_irrefl _)
        · exact absurd (lt_trans (pairwise_lt_getElem? hs h0some hisome h) hlt)
            (lt_irrefl _)
      have hlast : ¬ (c0 :: rest).getLast (by simp) < x := by
        intro hlt
        have hlsome : (c0 :: rest)[(c0 :: rest).length - 1]? =
            some ((c0 :: rest).getLast (by simp)) := by
          rw [List.getLast_eq_getElem]
          exact List.getElem?_eq_getElem (by simp)
        rcases Nat.lt_or_ge i ((c0 :: rest).length - 1) with h | h
        · exact absurd (lt_trans (pairwise_lt_getElem? hs hisome hlsome h) hlt)
            (lt_irrefl _)
        · have hieq : i = (c0 :: rest).length - 1 := by omega
          subst hieq
          rw [hisome] at hlsome
          exact absurd ((Option.some.inj hlsome) ▸ hlt) (lt_irrefl _)
      rw [containsBinary, if_neg (by simp only [not_or]; exact ⟨h0, hlast⟩)]
      refine bsearchLoop_complete _ _ hs _ 0 _ (by omega) ⟨i, by omega, by omega, hisome⟩ (by omega)

/-- The search function selected by getSearch decides membership for any
strictly sorted character list. -/
theorem searchRun_iff_mem {str : List Char} (hs : str.Pairwise (· < ·)) (x : Char) :
    searchRun str true x = true ↔ x ∈ str := by
  rcases Nat.eq_zero_or_pos str.length with h0 | h0
  · rw [List.length_eq_zero] at h0
    subst h0
    simp [searchRun, getSearchKind]
  · by_cases h10 : str.length ≤ 10
    · have hk : getSearchKind str true = .unrolled str.length := by
        rw [getSearchKind, if_neg (by omega), if_pos h10]
      by_cases h1 : str.length = 1
      · simp only [searchRun, hk, if_pos h1]
        exact contains1_iff_mem h1 x
      · simp only [searchRun, hk, if_neg h1]
        exact containsU_iff_mem str x
    · have hk : getSearchKind str true = .binary := by
        rw [getSearchKind, if_neg (by omega), if_neg h10, if_pos rfl]
      simp only [searchRun, hk]
      exact containsBinary_iff_mem hs x

/-- The predicate built at parser construction, getSearch applied to
charList(S) with the default sorted flag, decides membership in S. -/
theorem searchRun_charList_iff_mem (S : List Char) (x : Char) :
    searchRun (charList S) true x = true ↔ x ∈ S := by
  rw [searchRun_iff_mem (charList_sorted S) x]
  exact mem_charList S x

/-!
Embedding of the primitives from src/src/parsers/char.ts that the claims
need: seekUntilChar, readTo and peek, plus the single-literal case of str
from the str module for use as a concrete element parser.
-/

/-- Scan of seekUntilChar over the tail of the input starting at index i:
returns the index of the first character the predicate accepts, or the
index one past the scanned tail. -/
def seekUntilGo (chars : List Char) (f : List Char → Char → Bool) :
    List Char → Nat → Nat
  | [], i => i
  | c :: rest, i => if f chars c then i else seekUntilGo chars f rest (i + 1)

/-- Source seekUntilChar(s, p, chars, contains): the first index at or
after p whose character is in chars, or the input length when there is
none (also when p is past the end). -/
def seekUntilChar (s : List Char) (p : Nat) (chars : List Char)
    (f : List Char → Char → Bool) : Nat :=
  if s.length ≤ p then s.length else seekUntilGo chars f (s.drop p) p

/-- Source readTo(stop, end): sorts the stop set, consumes until a stop
character, and without the end flag fails at position skipped - 1 when
the scan ran off the end of the input. -/
def readToP (stop : List Char) (endFl : Bool) (det : Bool) : ParserF (List Char) :=
  fun s p =>
    let sorted := charList stop
    let skipped := seekUntilChar s p sorted (fun cs c => searchRun cs true c)
    if ¬ endFl ∧ s.length ≤ skipped then
      .failure ⟨(skipped : Int) - 1,
        failMsg det ("expected one of \"" ++ String.mk stop ++ "\" before end of input")⟩
    else
      .success (if skipped = 0 then [] else jsSubstring s p skipped) skipped

/-- Source peek(count): reads substr(p, count); succeeds when count
characters were available, recording position p + count, and otherwise
fails at p. -/
def peekP (count : Nat) (det : Bool) : ParserF (List Char) :=
  fun s p =>
    let r := jsSubstr s p count
    if r.length = count then .success r (p + count)
    else .failure ⟨(p : Int), failMsg det "unexpected end of input"⟩

/-- Single-literal single-character case of the source str parser: match
one character and advance by one, else fail at the entry position. -/
def strOneP (ch : Char) (det : Bool) : ParserF (List Char) :=
  fun s p =>
    if s[p]? = some ch then .success [ch] (p + 1)
    else .failure ⟨(p : Int), failMsg det ("expected " ++ String.mk [ch])⟩

example : readToP ("x".toList) false false ("abx".toList) 0 =
    .success ("ab".toList) 2 := by decide
example : readToP ("x".toList) false false ("ab".toList) 0 =
    .failure ⟨1, ""⟩ := by decide
example : readToP ("x".toList) true false ("ab".toList) 0 =
    .success ("ab".toList) 2 := by decide
example : peekP 2 false ("abc".toList) 0 = .success ("ab".toList) 2 := by decide
example : strOneP 'a' false ("ab".toList) 0 = .success ("a".toList) 1 := by decide

theorem seekUntilGo_not_found (chars : List Char) (f : List Char → Char → Bool)
    (l : List Char) (i : Nat) (h : ∀ c ∈ l, f chars c = false) :
    seekUntilGo chars f l i = i + l.length := by
  induction l generalizing i with
  | nil => simp [seekUntilGo]
  | cons c rest ih =>
    rw [seekUntilGo, if_neg (by rw [h c (List.mem_cons_self _ _)]; simp)]
    rw [ih (i + 1) (fun d hd => h d (List.mem_cons_of_mem _ hd))]
    simp
    omega

/-- When no character at or after p is accepted, seekUntilChar runs to
the end of the input. -/
theorem seekUntilChar_not_found (s : List Char) (p : Nat) (chars : List Char)
    (f : List Char → Char → Bool) (h : ∀ c ∈ s.drop p, f chars c = false) :
    seekUntilChar s p chars f = s.length := by
  rw [seekUntilChar]
  split
  · rfl
  · rename_i hp
    rw [seekUntilGo_not_found chars f _ p h, List.length_drop]
    omega

/-!
Embedding of src/src/parsers/rep.ts: rep, repsep and rep1sep.  Their
while loops are rendered with an explicit fuel argument; a run that
exhausts its fuel yields none, which models a loop that has not finished
within that many iterations.  The source loop for rep never terminates
when the element parser keeps succeeding at the same position, so no
amount of fuel can produce a result there.
-/

/-- Trailing-separator policy of repsep and rep1sep. -/
inductive Trail where
  | allow
  | disallow
  | require
  deriving DecidableEq, Repr

/-- Loop of rep after the unrolled first pass: keeps applying the parser,
accumulating values, and returns the accumulated list at the position of
the last success once the parser fails. -/
def repLoop {α : Type} (p : ParserF α) (s : List Char) :
    Nat → Nat → List α → Option (PResult (List α))
  | 0, _, _ => none
  | f + 1, c, acc =>
    match p s c with
    | .success v c2 => repLoop p s f c2 (acc ++ [v])
    | .failure _ => some (.success acc c)

/-- Source rep(parser): the first pass is unrolled; an immediate failure
returns the empty list at the entry position, otherwise the loop runs. -/
def repParse {α : Type} (p : ParserF α) (fuel : Nat) (s : List Char)
    (pos : Nat) : Option (PResult (List α)) :=
  match p s pos with
  | .failure _ => some (.success [] pos)
  | .success v c => repLoop p s fuel c [v]

/-- Loop of repsep after the first element and separator have matched:
state is the position after the last separator and the accumulated
elements. -/
def repsepLoop {α β : Type} (p : ParserF α) (sep : ParserF β) (trail : Trail)
    (det : Bool) (s : List Char) :
    Nat → Nat → List α → Option (PResult (List α))
  | 0, _, _ => none
  | f + 1, c, seq =>
    match p s c with
    | .success v c2 =>
      match sep s c2 with
      | .failure _ =>
        if trail = .require then
          some (.failure ⟨(c : Int), failMsg det "expected separator"⟩)
        else some (.success (seq ++ [v]) c2)
      | .success _ c3 => repsepLoop p sep trail det s f c3 (seq ++ [v])
    | .failure _ =>
      if trail = .disallow ∧ seq.isEmpty = false then
        some (.failure ⟨(c : Int), failMsg det "unexpected separator"⟩)
      else some (.success seq c)

/-- Source repsep(parser, sep, trail): unrolled first pass, then the
loop.  A failing first element yields the empty list at the entry
position; a first element without a following separator yields a
singleton (or, under the require policy, a failure at the entry
position, the value of m at that point). -/
def repsepParse {α β : Type} (p : ParserF α) (sep : ParserF β) (trail : Trail)
    (det : Bool) (fuel : Nat) (s : List Char) (pos : Nat) :
    Option (PResult (List α)) :=
  match p s pos with
  | .failure _ => some (.success [] pos)
  | .success v c1 =>
    match sep s c1 with
    | .failure _ =>
      if trail = .require then
        some (.failure ⟨(pos : Int), failMsg det "expected separator"⟩)
      else some (.success [v] c1)
    | .success _ c2 => repsepLoop p sep trail det s fuel c2 [v]

/-- Loop of rep1sep: state is the position c after the last separator,
the position l after the last element, and the accumulated elements. -/
def rep1sepLoop {α β : Type} (p : ParserF α) (sep : ParserF β) (trail : Trail)
    (det : Bool) (s : List Char) :
    Nat → Nat → Nat → List α → Option (PResult (List α))
  | 0, _, _, _ => none
  | f + 1, c, l, seq =>
    match p s c with
    | .success v l2 =>
      match sep s l2 with
      | .failure _ =>
        if trail = .require then
          some (.failure ⟨(l2 : Int), failMsg det "expected separator"⟩)
        else some (.success (seq ++ [v]) l2)
      | .success _ c2 => rep1sepLoop p sep trail det s f c2 l2 (seq ++ [v])
    | .failure _ =>
      if trail = .disallow ∧ seq.isEmpty = false then some (.success seq l)
      else some (.success seq c)

/-- Source rep1sep(parser, sep, name, trail): a failing first element is
a failure; otherwise the unrolled pass matches a separator and enters the
loop, and a missing first separator yields the singleton at the position
after the element (or a require failure there). -/
def rep1sepParse {α β : Type} (p : ParserF α) (sep : ParserF β) (trail : Trail)
    (det : Bool) (fuel : Nat) (s : List Char) (pos : Nat) :
    Option (PResult (List α)) :=
  match p s pos with
  | .failure _ =>
    some (.failure ⟨(pos : Int), failMsg det "expected at least one item"⟩)
  | .success v l =>
    match sep s l with
    | .failure _ =>
      if trail = .require then
        some (.failure ⟨(l : Int), failMsg det "expected separator"⟩)
      else some (.success [v] l)
    | .success _ c => rep1sepLoop p sep trail det s fuel c l [v]

/-- States reachable by the shared element-then-separator loop of repsep
and rep1sep: after parsing the elements seq (at least one), the last of
which ended at position l, a separator has just matched ending at
position c. -/
inductive SepRun {α β : Type} (p : ParserF α) (sep : ParserF β)
    (s : List Char) (pos : Nat) : Nat → Nat → List α → Prop where
  | first {v : α} {l : Nat} {w : β} {c : Nat} :
      p s pos = .success v l → sep s l = .success w c →
      SepRun p sep s pos c l [v]
  | step {c l : Nat} {seq : List α} {v : α} {l2 : Nat} {w : β} {c2 : Nat} :
      SepRun p sep s pos c l seq → p s c = .success v l2 →
      sep s l2 = .success w c2 →
      SepRun p sep s pos c2 l2 (seq ++ [v])

theorem SepRun.ne_nil {α β : Type} {p : ParserF α} {sep : ParserF β}
    {s : List Char} {pos c l : Nat} {seq : List α}
    (h : SepRun p sep s pos c l seq) : seq ≠ [] := by
  induction h with
  | first _ _ => simp
  | step _ _ _ _ => simp

/-!
Embedding of map from src/src/parsers/base.ts, the driver success path of
parser() from src/src/base.ts, and readToParser from the str module.
-/

/-- Source map(parser, fn): fn receives the value, the fail callback and
the span of the inner match.  A callback invocation is modelled as an
Except value: error msg stands for a run in which fn called fail(msg)
last, ok for a run that did not.  When fn failed, map fails at the end
position of the inner match with the message passed to the callback. -/
def mapP {α β : Type} (p : ParserF α) (f : α → Nat → Nat → Except String β) :
    ParserF β :=
  fun s pos =>
    match p s pos with
    | .failure c => .failure c
    | .success v e =>
      match f v pos e with
      | .error m => .failure ⟨(e : Int), m⟩
      | .ok u => .success u e

/-- Rendered parse error: getParseError keeps the failure position and
message of the cause it is given. -/
structure PErr where
  position : Int
  message : String
  deriving DecidableEq, Repr

/-- Driver success-path of the source parser() wrapper with the trim,
tree and undefined-on-error options off: run the root parser at
position 0; if it succeeded, consumeAll is in effect and the final
position is short of the input length, synthesize a failure at the final
position; render any failure as a parse error keeping its position and
message. -/
def driverRun {α : Type} (root : ParserF α) (consumeAll : Bool) (det : Bool)
    (s : List Char) : Except PErr α :=
  match root s 0 with
  | .failure c => .error ⟨c.pos, c.msg⟩
  | .success v pos =>
    if consumeAll ∧ pos < s.length then
      .error ⟨(pos : Int),
        failMsg det ("expected to consume all input, but only " ++
          Nat.repr pos ++ " chars consumed")⟩
    else .ok v

/-- Loop of readToParser(chars, parser): while the cursor is inside the
input, run the stop scanner readTo(chars, true) (which always succeeds,
landing on the next sigil or the end of input), try the terminator
there, and on terminator failure step one character past the scan
point.  Fuel bounds the iterations; the cursor strictly increases, so
length + 1 - start iterations always suffice (proved below). -/
def readToParserLoop {α : Type} (q : ParserF α) (chars : List Char)
    (det : Bool) (s : List Char) : Nat → Nat → Option Nat
  | 0, _ => none
  | f + 1, l =>
    if l < s.length then
      match readToP chars true det s l with
      | .success _ l1 =>
        match q s l1 with
        | .failure _ => readToParserLoop q chars det s f (l1 + 1)
        | .success _ _ => some l1
      | .failure _ => some l
    else some l

/-- Source readToParser(chars, parser): run the loop from the entry
position and succeed with the substring from the entry position to the
final cursor.  The failure arm of the stop scanner in the loop is dead
code: readTo with the end flag never fails. -/
def readToParserP {α : Type} (chars : List Char) (q : ParserF α) (det : Bool)
    (fuel : Nat) (s : List Char) (p : Nat) : Option (PResult (List Char)) :=
  match readToParserLoop q chars det s fuel p with
  | some l => some (.success (jsSubstring s p l) l)
  | none => none

/-- A parser that succeeds without consuming input at every position. -/
def epsP : ParserF Unit := fun _ p => .success () p

/-- Divergence of rep: no fuel bound suffices for the loop to finish. -/
def repNeverFinishes {α : Type} (p : ParserF α) (s : List Char) (pos : Nat) : Prop :=
  ∀ fuel, repParse p fuel s pos = none

example : repParse (strOneP 'a' false) 5 ("aab".toList) 0 =
    some (.success ["a".toList, "a".toList] 2) := by decide
example : repsepParse (strOneP 'a' false) (strOneP ',' false) .disallow false 5
    ("a,a".toList) 0 = some (.success ["a".toList, "a".toList] 3) := by decide
example : repsepParse (strOneP 'a' false) (strOneP ',' false) .disallow false 5
    ("a,".toList) 0 = some (.failure ⟨2, ""⟩) := by decide
example : rep1sepParse (strOneP 'a' false) (strOneP ',' false) .disallow false 5
    ("a,".toList) 0 = some (.success ["a".toList] 1) := by decide
example : readToParserP ("x".toList) (strOneP 'y' false) false 10
    ("ab".toList) 0 = some (.success ("ab".toList) 3) := by decide
example : readToParserP ("b".toList) (strOneP 'y' false) false 10
    ("ab".toList) 0 = some (.success ("ab".toList) 2) := by decide
example : readToParserP ("b".toList) (strOneP 'b' false) false 10
    ("ab".toList) 0 = some (.success ("a".toList) 1) := by decide
example : driverRun (strOneP 'a' true) true true ("ab".toList) =
    .error ⟨1, "expected to consume all input, but only 1 chars consumed"⟩ := by
  rfl

/-!
Shared lemmas about the loops of repsep, rep1sep, rep and readToParser.
-/

theorem repsepLoop_reach {α β : Type} {p : ParserF α} {sep : ParserF β}
    {s : List Char} {pos : Nat} (trail : Trail) (det : Bool)
    {c l : Nat} {seq : List α} (h : SepRun p sep s pos c l seq) :
    ∀ (f : Nat) (r : PResult (List α)),
      repsepLoop p sep trail det s f c seq = some r →
      ∃ F, repsepParse p sep trail det F s pos = some r := by
  induction h with
  | first h1 h2 =>
    intro f r hf
    exact ⟨f, by simp only [repsepParse, h1, h2]; exact hf⟩
  | step hrun h1 h2 ih =>
    intro f r hf
    refine ih (f + 1) r ?_
    simp only [repsepLoop, h1, h2]
    exact hf

theorem rep1sepLoop_reach {α β : Type} {p : ParserF α} {sep : ParserF β}
    {s : List Char} {pos : Nat} (trail : Trail) (det : Bool)
    {c l : Nat} {seq : List α} (h : SepRun p sep s pos c l seq) :
    ∀ (f : Nat) (r : PResult (List α)),
      rep1sepLoop p sep trail det s f c l seq = some r →
      ∃ F, rep1sepParse p sep trail det F s pos = some r := by
  induction h with
  | first h1 h2 =>
    intro f r hf
    exact ⟨f, by simp only [rep1sepParse, h1, h2]; exact hf⟩
  | step hrun h1 h2 ih =>
    intro f r hf
    refine ih (f + 1) r ?_
    simp only [rep1sepLoop, h1, h2]
    exact hf

theorem repLoop_eps (s : List Char) :
    ∀ (f : Nat) (c : Nat) (acc : List Unit),
      repLoop epsP s f c acc = none := by
  intro f
  induction f with
  | zero => intro c acc; rfl
  | succ f ih =>
    intro c acc
    simp only [repLoop, epsP]
    exact ih c (acc ++ [()])

theorem repLoop_progress {α : Type} {p : ParserF α} {s : List Char}
    (h : ∀ (c : Nat) (v : α) (c2 : Nat),
        p s c = .success v c2 → c < c2 ∧ c2 ≤ s.length) :
    ∀ (f : Nat) (c : Nat) (acc : List α), c ≤ s.length →
      s.length + 1 - c ≤ f →
      ∃ v e, repLoop p s f c acc = some (.success v e) := by
  intro f
  induction f with
  | zero => intro c acc hc hf; omega
  | succ f ih =>
    intro c acc hc hf
    cases hp : p s c with
    | success v c2 =>
      obtain ⟨h1, h2⟩ := h c v c2 hp
      obtain ⟨v2, e2, he⟩ := ih c2 (acc ++ [v]) h2 (by omega)
      exact ⟨v2, e2, by simp only [repLoop, hp]; exact he⟩
    | failure cc =>
      exact ⟨acc, c, by simp only [repLoop, hp]⟩

theorem seekUntilGo_ge (chars : List Char) (f : List Char → Char → Bool) :
    ∀ (l : List Char) (i : Nat), i ≤ seekUntilGo chars f l i := by
  intro l
  induction l with
  | nil => intro i; simp [seekUntilGo]
  | cons c rest ih =>
    intro i
    rw [seekUntilGo]
    split
    · exact le_refl i
    · exact le_trans (Nat.le_succ i) (ih (i + 1))

theorem seekUntilGo_le (chars : List Char) (f : List Char → Char → Bool) :
    ∀ (l : List Char) (i : Nat), seekUntilGo chars f l i ≤ i + l.length := by
  intro l
  induction l with
  | nil => intro i; simp [seekUntilGo]
  | cons c rest ih =>
    intro i
    rw [seekUntilGo]
    split
    · simp
    · calc seekUntilGo chars f rest (i + 1) ≤ i + 1 + rest.length := ih (i + 1)
        _ = i + (c :: rest).length := by simp; omega

theorem seekUntilChar_ge (s : List Char) (l : Nat) (chars : List Char)
    (f : List Char → Char → Bool) (hl : l ≤ s.length) :
    l ≤ seekUntilChar s l chars f := by
  rw [seekUntilChar]
  split
  · omega
  · exact seekUntilGo_ge chars f _ l

theorem seekUntilChar_le (s : List Char) (l : Nat) (chars : List Char)
    (f : List Char → Char → Bool) :
    seekUntilChar s l chars f ≤ s.length := by
  rw [seekUntilChar]
  split
  · exact le_refl _
  · rename_i hp
    calc seekUntilGo chars f (s.drop l) l ≤ l + (s.drop l).length :=
        seekUntilGo_le chars f _ l
      _ ≤ s.length := by rw [List.length_drop]; omega

theorem readToP_end_success (chars : List Char) (det : Bool) (s : List Char)
    (l : Nat) :
    readToP chars true det s l =
      .success
        (if seekUntilChar s l (charList chars) (fun cs c => searchRun cs true c) = 0
          then []
          else jsSubstring s l
            (seekUntilChar s l (charList chars) (fun cs c => searchRun cs true c)))
        (seekUntilChar s l (charList chars) (fun cs c => searchRun cs true c)) := by
  simp [readToP]

theorem readToParserLoop_total {α : Type} (q : ParserF α) (chars : List Char)
    (det : Bool) (s : List Char) :
    ∀ (f : Nat) (l : Nat), s.length + 1 - l < f →
      ∃ L, readToParserLoop q chars det s f l = some L ∧ l ≤ L := by
  intro f
  induction f with
  | zero => intro l hf; omega
  | succ f ih =>
    intro l hf
    by_cases hl : l < s.length
    · have hv := readToP_end_success chars det s l
      have hge := seekUntilChar_ge s l (charList chars)
        (fun cs c => searchRun cs true c) (by omega)
      cases hq : q s (seekUntilChar s l (charList chars) (fun cs c => searchRun cs true c)) with
      | success w e =>
        refine ⟨_, ?_, hge⟩
        simp only [readToParserLoop, if_pos hl, hv, hq]
      | failure cc =>
        obtain ⟨L, hL, hLe⟩ := ih (seekUntilChar s l (charList chars)
          (fun cs c => searchRun cs true c) + 1) (by
            have := seekUntilChar_le s l (charList chars)
              (fun cs c => searchRun cs true c)
            omega)
        refine ⟨L, ?_, by omega⟩
        simp only [readToParserLoop, if_pos hl, hv, hq]
        exact hL
    · exact ⟨l, by rw [readToParserLoop, if_neg hl], le_refl l⟩

theorem readToParserLoop_qfail {α : Type} (q : ParserF α) (chars : List Char)
    (det : Bool) (s : List Char) (hq : ∀ i, (q s i).isFail = true) :
    ∀ (f : Nat) (l : Nat), s.length + 1 - l < f → l ≤ s.length + 1 →
      ∃ L, readToParserLoop q chars det s f l = some L ∧
        s.length ≤ L ∧ L ≤ s.length + 1 := by
  intro f
  induction f with
  | zero => intro l hf hl; omega
  | succ f ih =>
    intro l hf hl
    by_cases hlt : l < s.length
    · have hv := readToP_end_success chars det s l
      have hge := seekUntilChar_ge s l (charList chars)
        (fun cs c => searchRun cs true c) (by omega)
      have hle := seekUntilChar_le s l (charList chars)
        (fun cs c => searchRun cs true c)
      cases hqq : q s (seekUntilChar s l (charList chars) (fun cs c => searchRun cs true c)) with
      | success w e =>
        have := hq (seekUntilChar s l (charList chars) (fun cs c => searchRun cs true c))
        rw [hqq] at this
        simp [PResult.isFail] at this
      | failure cc =>
        obtain ⟨L, hL, hL1, hL2⟩ := ih (seekUntilChar s l (charList chars)
          (fun cs c => searchRun cs true c) + 1) (by omega) (by omega)
        refine ⟨L, ?_, hL1, hL2⟩
        simp only [readToParserLoop, if_pos hlt, hv, hqq]
        exact hL
    · exact ⟨l, by rw [readToParserLoop, if_neg hlt], by omega, hl⟩

theorem jsSubstring_drop (s : List Char) (p L : Nat) (hp : p ≤ s.length)
    (hL : s.length ≤ L) : jsSubstring s p L = s.drop p := by
  simp only [jsSubstring]
  rw [min_eq_left hp, min_eq_right hL, max_eq_right hp, min_eq_left hp,
    List.take_length]

/-!
Claim theorems.
-/

/-- Claim C1 (code bug): the spec and the doc comment of peek both state
that peek(n) does not advance, succeeding with new position equal to the
starting position.  The code instead records p + count as the new
position: at the failing input peek(2) on "abc" from position 0 it
succeeds with value "ab" and new position 2, not 0. -/
theorem c1_peek_advances_at_failing_input :
    peekP 2 false ("abc".toList) 0 = .success ("ab".toList) 2 := by decide

/-- Claim C2 (counterexample): with element parser for the single
character a and separator parser for the single character comma, on
input "a," one element is parsed, the separator matches, and the element
parser then fails; repsep with the disallow policy returns the failure
signal (recorded at position 2, after the separator), not the success at
position 1 that the claim requires. -/
theorem c2_counterexample :
    repsepParse (strOneP 'a' false) (strOneP ',' false) .disallow false 5
      ("a,".toList) 0 = some (.failure ⟨2, ""⟩) := by decide

/-- Claim C2 (amended): for repsep(p, sep, disallow), whenever at least
one element has been parsed and a separator then matches but the element
parser fails after it, the parser fails with the message "unexpected
separator" (when the messages bit is on) recorded at the position after
the trailing separator; it does not succeed. -/
theorem c2_repsep_disallow_trailing_fails {α β : Type} {p : ParserF α}
    {sep : ParserF β} (det : Bool) {s : List Char} {pos c l : Nat}
    {seq : List α} (h : SepRun p sep s pos c l seq)
    (hf : (p s c).isFail = true) :
    ∃ F, repsepParse p sep .disallow det F s pos =
      some (.failure ⟨(c : Int), failMsg det "unexpected separator"⟩) := by
  cases hp : p s c with
  | success v c2 =>
    rw [hp] at hf
    simp [PResult.isFail] at hf
  | failure cc =>
    refine repsepLoop_reach .disallow det h 1 _ ?_
    have hne : seq.isEmpty = false := by
      cases hs : seq
      · exact absurd hs h.ne_nil
      · rfl
    simp only [repsepLoop, hp]
    simp [hne]

/-- Claim C2 (witness): the amended statement applied to the concrete
run of the counterexample. -/
theorem c2_witness :
    ∃ F, repsepParse (strOneP 'a' false) (strOneP ',' false) .disallow false F
      ("a,".toList) 0 = some (.failure ⟨2, ""⟩) :=
  c2_repsep_disallow_trailing_fails false
    (@SepRun.first (List Char) (List Char) (strOneP 'a' false) (strOneP ',' false)
      ("a,".toList) 0 ("a".toList) 1 (",".toList) 2 (by decide) (by decide))
    (by decide)

/-- Claim C3: for rep1sep(p, sep, name, disallow), whenever at least one
element has been parsed and a separator then matches but the element
parser fails after it, the parser succeeds and the returned position is
the position just after the last successfully parsed element (the l of
the reached loop state); the trailing separator is not consumed. -/
theorem c3_rep1sep_disallow_rewinds {α β : Type} {p : ParserF α}
    {sep : ParserF β} (det : Bool) {s : List Char} {pos c l : Nat}
    {seq : List α} (h : SepRun p sep s pos c l seq)
    (hf : (p s c).isFail = true) :
    ∃ F, rep1sepParse p sep .disallow det F s pos =
      some (.success seq l) := by
  cases hp : p s c with
  | success v c2 =>
    rw [hp] at hf
    simp [PResult.isFail] at hf
  | failure cc =>
    refine rep1sepLoop_reach .disallow det h 1 _ ?_
    have hne : seq.isEmpty = false := by
      cases hs : seq
      · exact absurd hs h.ne_nil
      · rfl
    simp only [rep1sepLoop, hp]
    simp [hne]

/-- Claim C3 (witness): on input "a," with element parser a and
separator comma, one element is parsed ending at position 1, the
separator matches ending at 2, and the element parser fails at 2;
rep1sep with disallow succeeds with the singleton list at position 1. -/
theorem c3_witness :
    ∃ F, rep1sepParse (strOneP 'a' false) (strOneP ',' false) .disallow false F
      ("a,".toList) 0 = some (.success ["a".toList] 1) :=
  c3_rep1sep_disallow_rewinds false
    (@SepRun.first (List Char) (List Char) (strOneP 'a' false) (strOneP ',' false)
      ("a,".toList) 0 ("a".toList) 1 (",".toList) 2 (by decide) (by decide))
    (by decide)

/-- Claim C4 (counterexample): with a parser that succeeds without
consuming any input at every position, the rep loop never finishes: no
fuel bound produces any result, modelling the non-terminating while loop
of the source.  The claim that rep always succeeds, including for such a
parser, is therefore false. -/
theorem c4_counterexample : repNeverFinishes epsP [] 0 := by
  intro fuel
  simp only [repParse, epsP]
  exact repLoop_eps [] fuel 0 [()]

/-- Claim C4 (amended): rep(P) always succeeds and never returns the
failure signal for every parser P each of whose successes strictly
advances the position and stays within the input; when P succeeds
without consuming, the rep loop does not terminate. -/
theorem c4_rep_succeeds_of_progress {α : Type} (p : ParserF α)
    (s : List Char) (pos : Nat)
    (h : ∀ (c : Nat) (v : α) (c2 : Nat),
        p s c = .success v c2 → c < c2 ∧ c2 ≤ s.length) :
    ∃ v e, repParse p (s.length + 1) s pos = some (.success v e) := by
  cases hp : p s pos with
  | failure cc => exact ⟨[], pos, by simp only [repParse, hp]⟩
  | success v c =>
    obtain ⟨h1, h2⟩ := h pos v c hp
    obtain ⟨v2, e2, he⟩ := repLoop_progress h (s.length + 1) c [v] h2 (by omega)
    exact ⟨v2, e2, by simp only [repParse, hp]; exact he⟩

/-- Claim C4 (witness): rep over the single-character parser for a, on
input "aa", succeeds. -/
theorem c4_witness :
    ∃ v e, repParse (strOneP 'a' false) (("aa".toList).length + 1)
      ("aa".toList) 0 = some (.success v e) :=
  c4_rep_succeeds_of_progress (strOneP 'a' false) ("aa".toList) 0 (by
    intro c v c2 hsucc
    simp only [strOneP] at hsucc
    split at hsucc
    · rename_i hcond
      rw [List.getElem?_eq_some] at hcond
      have hclen : c < ("aa".toList).length := hcond.1
      have hl2 : ("aa".toList).length = 2 := rfl
      cases hsucc
      exact ⟨Nat.lt_succ_self c, by omega⟩
    · exact absurd hsucc (by simp))

/-- Claim C5 (counterexample): on a sorted set of 11 characters,
getSearch selects binary search, while the claimed table prescribes a
linear scan for sizes 11 through 80. -/
theorem c5_counterexample :
    getSearchKind ("0123456789a".toList) true = SearchKind.binary ∧
    specClaimedSearchKind ("0123456789a".toList) true = SearchKind.linear := by
  decide

/-- Claim C5 (amended): getSearch selects an always-false predicate for
size 0 and an unrolled straight-line disjunction for sizes 1 through 10;
for sizes 11 and above it selects binary search whenever the sorted flag
(the default) is set and a linear scan only when it is not.  The 80/81
linear-versus-binary threshold belongs to the separate generic contains
helper, not to getSearch. -/
theorem c5_getSearchKind_eq_amended :
    ∀ (str : List Char) (sorted : Bool),
      getSearchKind str sorted = specAmendedSearchKind str sorted := by
  intro str sorted
  rfl

/-- Claim C6: for every character set S and character c, the search
predicate built at parser construction (getSearch applied to charList(S)
with the default sorted flag) returns true exactly when c occurs in S;
moreover the stored set charList(S) is sorted and duplicate free. -/
theorem c6_charclass_iff_mem (S : List Char) (x : Char) :
    (searchRun (charList S) true x = true ↔ x ∈ S) ∧
    (charList S).Pairwise (· < ·) :=
  ⟨searchRun_charList_iff_mem S x, charList_sorted S⟩

/-- Claim C7: for readTo(set) without the end flag, on any input and
position such that no character of the stop set occurs at or after the
position, the parse fails and the recorded failure position is the input
length minus one. -/
theorem c7_readTo_fails_at_len_minus_one (stop : List Char) (det : Bool)
    (s : List Char) (p : Nat) (h : ∀ c ∈ s.drop p, c ∉ stop) :
    readToP stop false det s p =
      .failure ⟨(s.length : Int) - 1,
        failMsg det ("expected one of \"" ++ String.mk stop ++ "\" before end of input")⟩ := by
  have hseek : seekUntilChar s p (charList stop)
      (fun cs c => searchRun cs true c) = s.length := by
    refine seekUntilChar_not_found s p _ _ ?_
    intro c hc
    cases hr : searchRun (charList stop) true c
    · rfl
    · exact absurd ((searchRun_charList_iff_mem stop c).mp hr) (h c hc)
  simp only [readToP, hseek]
  rw [if_pos ⟨by simp, le_refl _⟩]

/-- Claim C7 (witness): readTo("x") without end on input "ab" from
position 0 fails at position 1, the input length minus one. -/
theorem c7_witness :
    readToP ("x".toList) false false ("ab".toList) 0 = .failure ⟨1, ""⟩ :=
  c7_readTo_fails_at_len_minus_one ("x".toList) false ("ab".toList) 0 (by decide)

/-- Claim C8: for map(p, f), whenever p succeeds spanning from the start
position to an end position and f invokes the fail callback with a
message, map returns a failure recorded at the end position of the inner
match, not at the start position. -/
theorem c8_map_fails_at_end_position {α β : Type} (p : ParserF α)
    (f : α → Nat → Nat → Except String β) (s : List Char) (pos : Nat)
    (v : α) (e : Nat) (m : String)
    (h1 : p s pos = .success v e) (h2 : f v pos e = .error m) :
    mapP p f s pos = .failure ⟨(e : Int), m⟩ := by
  simp only [mapP, h1, h2]

/-- Claim C8 (witness): mapping the single-character parser for a with a
function that always calls fail produces, on input "ab", a failure at
position 1 (the end of the match), not position 0. -/
theorem c8_witness :
    mapP (strOneP 'a' false)
      (fun _ _ _ => (Except.error "rejected" : Except String (List Char)))
      ("ab".toList) 0 = .failure ⟨1, "rejected"⟩ :=
  c8_map_fails_at_end_position (strOneP 'a' false)
    (fun _ _ _ => (Except.error "rejected" : Except String (List Char)))
    ("ab".toList) 0 ("a".toList) 1 "rejected" (by decide) rfl

/-- Claim C9: when the driver runs with consumeAll effective and the
messages detail bit set, and the root parser succeeds at a final
position strictly below the input length, the driver produces an error
whose position is that final position and whose message is "expected to
consume all input, but only N chars consumed" with N the final
position. -/
theorem c9_driver_consume_all {α : Type} (root : ParserF α)
    (s : List Char) (v : α) (pos : Nat)
    (h1 : root s 0 = .success v pos) (h2 : pos < s.length) :
    driverRun root true true s =
      .error ⟨(pos : Int), "expected to consume all input, but only " ++
        Nat.repr pos ++ " chars consumed"⟩ := by
  simp only [driverRun, h1]
  simp [h2, failMsg]

/-- Claim C9 (witness): the driver with consumeAll over the parser for a
single a, on input "ab", reports the failure at position 1 with the
message naming 1 consumed character. -/
theorem c9_witness :
    driverRun (strOneP 'a' true) true true ("ab".toList) =
      .error ⟨1, "expected to consume all input, but only 1 chars consumed"⟩ :=
  c9_driver_consume_all (strOneP 'a' true) ("ab".toList) ("a".toList) 1
    (by decide) (by decide)

/-- Claim C10 (counterexample): readToParser("x", q) with a terminator q
that never succeeds, on input "ab" of length 2 from position 0, succeeds
with final position 3, which is the input length plus one and not the
end of the input. -/
theorem c10_counterexample :
    readToParserP ("x".toList) (strOneP 'y' false) false 10 ("ab".toList) 0
      = some (.success ("ab".toList) 3) ∧ ("ab".toList).length = 2 := by
  decide

/-- Claim C10 (amended): readToParser(chars, q) never fails: with enough
fuel for the source while loop (which always terminates), it returns a
success whose value is the substring from the entry position to the
final position; and if q never succeeds at any position and the entry
position is inside the input, it succeeds with the whole remaining input
as value and a final position of the input length or the input length
plus one (the overshoot happens when the trailing stretch contains no
sigil character). -/
theorem c10_readToParser_never_fails {α : Type} (chars : List Char)
    (q : ParserF α) (det : Bool) (s : List Char) (p fuel : Nat)
    (hfuel : s.length + 1 - p < fuel) :
    (∃ L, readToParserP chars q det fuel s p =
      some (.success (jsSubstring s p L) L)) ∧
    ((∀ i, (q s i).isFail = true) → p < s.length →
      ∃ L, readToParserP chars q det fuel s p =
        some (.success (s.drop p) L) ∧ s.length ≤ L ∧ L ≤ s.length + 1) := by
  constructor
  · obtain ⟨L, hL, _⟩ := readToParserLoop_total q chars det s fuel p hfuel
    exact ⟨L, by simp only [readToParserP, hL]⟩
  · intro hq hp
    obtain ⟨L, hL, hL1, hL2⟩ :=
      readToParserLoop_qfail q chars det s hq fuel p hfuel (by omega)
    refine ⟨L, ?_, hL1, hL2⟩
    have hv : jsSubstring s p L = s.drop p := jsSubstring_drop s p L (by omega) hL1
    simp only [readToParserP, hL, hv]

/-- Claim C10 (witness): the amended statement applied to the concrete
run of the counterexample. -/
theorem c10_witness :
    ∃ L, readToParserP ("x".toList) (strOneP 'y' false) false 10 ("ab".toList) 0 =
      some (.success (("ab".toList).drop 0) L) ∧
      ("ab".toList).length ≤ L ∧ L ≤ ("ab".toList).length + 1 :=
  (c10_readToParser_never_fails ("x".toList) (strOneP 'y' false) false
      ("ab".toList) 0 10 (by decide)).2
    (by
      intro i
      match i with
      | 0 => decide
      | 1 => decide
      | n + 2 =>
        have hnone : ("ab".toList)[n + 2]? = none :=
          List.getElem?_eq_none (Nat.le_add_left 2 n)
        simp [strOneP, hnone, PResult.isFail])
    (by decide)
